import Mathlib

/-!
Verification of the smallsh command interpreter (src/smallsh.c) against its
natural-language specification.  The shell targets Linux/glibc (the README
compiles it with gcc --std=gnu99), so the wait-status macros WIFEXITED,
WEXITSTATUS, WIFSIGNALED and WTERMSIG are embedded with their glibc meaning,
with C int values modelled as Lean Int and the bit masks expressed through
emod (Int.emod is non-negative for a positive modulus, matching the masking
of a two's-complement int).
-/

namespace Smallsh

/-! ### Wait-status macros (glibc)

glibc defines:
  WTERMSIG(s)    = s & 0x7f
  WIFEXITED(s)   = (s & 0x7f) == 0
  WEXITSTATUS(s) = (s & 0xff00) >> 8
  WIFSIGNALED(s) = ((signed char)(((s & 0x7f) + 1) >> 1)) > 0
For s & 0x7f in [0,127] the signed-char test is positive exactly when the
low seven bits are neither 0 nor 0x7f. -/

def WTERMSIG (s : Int) : Int := s % 128

def WIFEXITED (s : Int) : Bool := s % 128 = 0

def WEXITSTATUS (s : Int) : Int := (s % 65536) / 256

def WIFSIGNALED (s : Int) : Bool := ¬ s % 128 = 0 ∧ ¬ s % 128 = 127

/-! ### Global variables (src/smallsh.c lines 15-28), initial values -/

-- pid_t current_foreground_pid = -5;
def current_foreground_pid_init : Int := -5

-- int exit_method = -5;
def exit_method_init : Int := -5

-- int z_mode = 0;
def z_mode_init : Int := 0

-- int num_background_process = 0;
def num_background_process_init : Int := 0

/-! ### Messages printed by the shell -/

inductive Msg where
  | exitValue : Int → Msg                 -- printf("exit value %d\n", ...)
  | terminatedBySignal : Int → Msg        -- printf("terminated by signal %d\n", ...)
  | backgroundPidIsDone : Int → Msg       -- printf("background pid %d is done: ", ...)
  | backgroundPidIs : Int → Msg           -- printf("Background pid is %d\n", ...)
  | redirFail : Option String → Msg       -- printf("bash: %s: No such file or directory\n", ...)
deriving DecidableEq

/-! ### status_command (src/smallsh.c lines 193-208)

Prints "exit value WEXITSTATUS" when WIFEXITED holds of the stored
exit_method, and "terminated by signal WTERMSIG" otherwise. -/

def status_command (exit_method : Int) : Msg :=
  if WIFEXITED exit_method then Msg.exitValue (WEXITSTATUS exit_method)
  else Msg.terminatedBySignal (WTERMSIG exit_method)

/-! ### check_termination (src/smallsh.c lines 59-68) -/

def check_termination (exit_method : Int) : List Msg :=
  if WIFSIGNALED exit_method then [Msg.terminatedBySignal (WTERMSIG exit_method)] else []

/-! ### check_background_processes (src/smallsh.c lines 397-424)

The reap oracle is `some (pid, status)` when waitpid(-1, &exit_method,
WNOHANG) finds a completed child (return value > 0, status stored into the
global exit_method), and `none` when it returns 0 or -1 (nothing stored).
The function returns the new values of the globals it can touch together
with the messages printed.  Note that the source decrements nothing. -/

structure ReapOut where
  num_background_process : Int
  exit_method : Int
  msgs : List Msg
deriving DecidableEq

def check_background_processes (num_background_process : Int) (exit_method : Int)
    (reap : Option (Int × Int)) : ReapOut :=
  if num_background_process > 0 then
    match reap with
    | some pst =>
        ⟨num_background_process, pst.2,
          [Msg.backgroundPidIsDone pst.1,
           if WIFEXITED pst.2 then Msg.exitValue (WEXITSTATUS pst.2)
           else Msg.terminatedBySignal (WTERMSIG pst.2)]⟩
    | none => ⟨num_background_process, exit_method, []⟩
  else ⟨num_background_process, exit_method, []⟩

/-! ### Signal dispositions and exit_shell (src/smallsh.c lines 102-184)

main() installs a handler for SIGTSTP and ignores SIGINT
(deal_with_signals); the disposition of SIGTERM is never changed and stays
at its default.  exit_shell does kill(-group_pid, SIGTERM) followed by
exit(0).  POSIX kill() guarantees that when the signal is generated for the
calling process itself (the shell is a member of its own process group) and
is unblocked, it is delivered before kill() returns; with the default
disposition SIGTERM terminates the process, so exit(0) is reached only when
SIGTERM is ignored or handled. -/

inductive SigDisp where
  | dfl | ign | handler
deriving DecidableEq

structure Dispositions where
  sigint : SigDisp
  sigtstp : SigDisp
  sigterm : SigDisp
deriving DecidableEq

def initialDispositions : Dispositions := ⟨SigDisp.dfl, SigDisp.dfl, SigDisp.dfl⟩

-- deal_with_SIGTSTP (lines 121-132): install handler for SIGTSTP
def deal_with_SIGTSTP (d : Dispositions) : Dispositions := ⟨d.sigint, SigDisp.handler, d.sigterm⟩

-- deal_with_SIGINT (lines 141-148): ignore SIGINT
def deal_with_SIGINT (d : Dispositions) : Dispositions := ⟨SigDisp.ign, d.sigtstp, d.sigterm⟩

-- deal_with_signals (lines 157-161)
def deal_with_signals (d : Dispositions) : Dispositions := deal_with_SIGINT (deal_with_SIGTSTP d)

-- the shell's dispositions for the whole run of shell_loop
def shellDispositions : Dispositions := deal_with_signals initialDispositions

def SIGTERM : Int := 15

inductive Termination where
  | exited : Int → Termination
  | signaled : Int → Termination
deriving DecidableEq

structure ExitShellOut where
  -- signal sent to every process of the shell's process group, shell included
  killGroupSignal : Int
  -- how the shell process itself terminates
  outcome : Termination
deriving DecidableEq

def exit_shell (d : Dispositions) : ExitShellOut :=
  ⟨SIGTERM, if d.sigterm = SigDisp.dfl then Termination.signaled SIGTERM else Termination.exited 0⟩

/-! ### redirection (src/smallsh.c lines 297-388)

The function scans the argument vector left to right over indices
i < count - 1.  At an index holding ">" it opens args[i+1] with
O_WRONLY|O_CREAT|O_TRUNC (modelled by the oracle openW deciding whether the
open succeeds); on failure it sets the global redirection_file and returns
1; on success it dup2s the descriptor onto stdout, closes it and records
the indices i and i+1 for removal.  "<" is symmetric with O_RDONLY (oracle
openR) and stdin.  After the scan it dup2s again whenever the file
variables differ from -5, attaches /dev/null to either stream of a
background command that did not redirect it, and finally overwrites every
recorded index of args with NULL.

The local `int input_file, output_file = -5;` initialises only
output_file; input_file starts as whatever the stack held, modelled by the
explicit parameter junkIn.  A file variable is therefore either a plain
int (its initial value) or a descriptor obtained from a successful open —
a successful open never returns -5, which keeps the `!= -5` tests faithful. -/

inductive FileVal where
  | intVal : Int → FileVal       -- value never assigned from an open
  | fd : String → FileVal        -- descriptor of a successfully opened path
deriving DecidableEq

/-- A source dup2'ed onto stdin or stdout: an indeterminate plain int, the
descriptor of an opened path, or the /dev/null descriptor. -/
inductive FdSrc where
  | lit : Int → FdSrc
  | file : String → FdSrc
  | null : FdSrc
deriving DecidableEq

def fdSrcOf : FileVal → FdSrc
  | FileVal.intVal j => FdSrc.lit j
  | FileVal.fd p => FdSrc.file p

/-- args[idx] = NULL for every recorded index (lines 382-385), applied to the
suffix of args starting at position idx. -/
def nullify : List String → Nat → List Nat → List (Option String)
  | [], _, _ => []
  | a :: rest, idx, removes =>
      (if idx ∈ removes then none else some a) :: nullify rest (idx + 1) removes

/-- The argument vector execvp actually receives: a C char** array is read
up to its first NULL entry. -/
def untilNone : List (Option String) → List String
  | [] => []
  | none :: _ => []
  | some a :: rest => a :: untilNone rest

structure RedirOut where
  ret : Int                         -- return value, 0 or 1
  redirection_file : Option String  -- global set when an open fails
  argsAfter : List (Option String)  -- args after the NULL overwrites
  removed : List Nat                -- args_to_remove[0..len_args_to_remove)
  stdoutActs : List FdSrc           -- dup2 attempts onto descriptor 1, in order
  stdinActs : List FdSrc            -- dup2 attempts onto descriptor 0, in order
deriving DecidableEq

/-- Code after the scan loop (lines 354-387): the extra foreground dup2s, the
/dev/null attachments for background commands, and the NULL overwrites. -/
def redirFinish (args : List String) (bg : Bool) (outF inF : FileVal)
    (removes : List Nat) (so si : List FdSrc) : RedirOut :=
  let so1 := if outF ≠ FileVal.intVal (-5) then so ++ [fdSrcOf outF] else so
  let si1 := if inF ≠ FileVal.intVal (-5) then si ++ [fdSrcOf inF] else si
  let so2 := if outF = FileVal.intVal (-5) ∧ bg then so1 ++ [FdSrc.null] else so1
  let si2 := if inF = FileVal.intVal (-5) ∧ bg then si1 ++ [FdSrc.null] else si1
  ⟨0, none, nullify args 0 removes, removes, so2, si2⟩

/-- The scan loop (lines 309-352).  The full args list is a fixed parameter
(the NULL overwrites happen only after the loop); the recursion walks the
suffix of args that starts at index i, so the loop guard i < count - 1 is
the guard that the suffix still has at least two elements.  The two strcmp
tests of the source are independent ifs, but args[i] cannot equal both ">"
and "<", so chaining them with else is equivalent. -/
def redirLoop (openW openR : String → Bool) (bg : Bool) (args : List String) :
    List String → Nat → FileVal → FileVal → List Nat → List FdSrc → List FdSrc → RedirOut
  | a :: b :: rest, i, outF, inF, removes, so, si =>
      if a = ">" then
        if openW b then
          redirLoop openW openR bg args (b :: rest) (i + 1) (FileVal.fd b) inF
            (removes ++ [i, i + 1]) (so ++ [FdSrc.file b]) si
        else ⟨1, some b, args.map some, removes, so, si⟩
      else if a = "<" then
        if openR b then
          redirLoop openW openR bg args (b :: rest) (i + 1) outF (FileVal.fd b)
            (removes ++ [i, i + 1]) so (si ++ [FdSrc.file b])
        else ⟨1, some b, args.map some, removes, so, si⟩
      else redirLoop openW openR bg args (b :: rest) (i + 1) outF inF removes so si
  | _, _, outF, inF, removes, so, si => redirFinish args bg outF inF removes so si

def redirection (openW openR : String → Bool) (args : List String) (bg : Bool)
    (junkIn : Int) : RedirOut :=
  redirLoop openW openR bg args args 0 (FileVal.intVal (-5)) (FileVal.intVal junkIn) [] [] []

/-! ### run_fork (src/smallsh.c lines 433-506) -/

structure ShellState where
  current_foreground_pid : Int
  exit_method : Int
  num_background_process : Int
deriving DecidableEq

/-- Environment of one run_fork call: the fork() result seen by the parent
(-1 on failure, otherwise the child's pid), the child's own getpid(), the
two open oracles, the indeterminate initial value of the child's input_file
local, and the status waitpid stores for a foreground child. -/
structure ForkEnv where
  spawnPid : Int
  childPid : Int
  openW : String → Bool
  openR : String → Bool
  junkIn : Int
  waitStatus : Int

inductive ChildAct where
  | execs : List String → ChildAct          -- execvp(args[0], args)
  | exitRedirFail : Option String → ChildAct -- error message then exit(1)
deriving DecidableEq

structure ChildSide where
  setsForegroundPidTo : Option Int  -- current_foreground_pid = getpid() when foreground
  resetsSIGINT : Bool
  redir : RedirOut
  act : ChildAct
deriving DecidableEq

structure ParentSide where
  waits : Bool
  state : ShellState
  msgs : List Msg
deriving DecidableEq

structure ForkOut where
  background_command : Bool
  effectiveArgs : List String
  fatalForkFailure : Bool          -- fork() returned -1: perror + exit(1)
  child : Option ChildSide
  parent : Option ParentSide
deriving DecidableEq

/-- Lines 439-448: if the last argument is "&", it is removed, and
background_command becomes 1 only when z_mode is 0. -/
def stripAmp (z_mode : Int) (args : List String) : List String × Bool :=
  if args.getLast? = some "&" then (args.dropLast, z_mode == 0) else (args, false)

/-- Lines 450-505, on the argument list and background flag left by the
strip.  Both the child and the parent run the strip on their own copies of
the same data, so one shared result is faithful. -/
def runForkCore (ab : List String × Bool) (st : ShellState) (env : ForkEnv) : ForkOut :=
  let args := ab.1
  let bg := ab.2
  if env.spawnPid = -1 then ⟨bg, args, true, none, none⟩
  else
    let redir := redirection env.openW env.openR args bg env.junkIn
    let child : ChildSide :=
      ⟨if bg then none else some env.childPid,
       !bg,
       redir,
       if redir.ret = 1 then ChildAct.exitRedirFail redir.redirection_file
       else ChildAct.execs (untilNone redir.argsAfter)⟩
    let parent : ParentSide :=
      if bg then
        ⟨false,
         ⟨st.current_foreground_pid, st.exit_method, st.num_background_process + 1⟩,
         [Msg.backgroundPidIs env.spawnPid]⟩
      else
        ⟨true,
         ⟨env.spawnPid, env.waitStatus, st.num_background_process⟩,
         check_termination env.waitStatus⟩
    ⟨bg, args, false, some child, some parent⟩

def run_fork (z_mode : Int) (args : List String) (st : ShellState) (env : ForkEnv) : ForkOut :=
  runForkCore (stripAmp z_mode args) st env

/-! ### expand_pid (src/smallsh.c lines 269-288)

While strstr finds the two-character token "$$" in the command, the source
splits the command at the first occurrence, rebuilds it as
snprintf(buffer, MAX_COMMAND_LENGTH, "%s%d%s", start, getpid(), restof)
— which writes at most MAX_COMMAND_LENGTH - 1 characters — and copies the
buffer back.  The process id's decimal form is a parameter pid (a nonempty
digit string).  findDD is strstr(command, two-dollar token): the split of
the list at the first occurrence.  The while loop is run on fuel
length + 1, which is enough: every iteration replaces the first occurrence
by digit text that can create no new occurrence, so the number of
occurrences, at most the length, strictly decreases. -/

def MAX_COMMAND_LENGTH : Nat := 2048

def findDD : List Char → Option (List Char × List Char)
  | c :: d :: rest =>
      if c = '$' ∧ d = '$' then some ([], rest)
      else
        match findDD (d :: rest) with
        | some p => some (c :: p.1, p.2)
        | none => none
  | _ => none

def expandLoop (pid : List Char) : Nat → List Char → List Char
  | 0, s => s
  | fuel + 1, s =>
      match findDD s with
      | some p => expandLoop pid fuel (List.take (MAX_COMMAND_LENGTH - 1) (p.1 ++ pid ++ p.2))
      | none => s

def expand_pid (pid : List Char) (command : List Char) : List Char :=
  expandLoop pid (command.length + 1) command

/-! Vocabulary for stating what expansion does: a line with k non-overlapping
occurrences of the token, scanned left to right, is joinSep dd segs for a
list segs of k+1 segments none of which contains the token and none of
which — apart from the last — ends in a dollar (otherwise the occurrence
would start one position earlier). -/

def dd : List Char := ['$', '$']

def joinSep (sep : List Char) : List (List Char) → List Char
  | [] => []
  | [x] => x
  | x :: y :: ys => x ++ sep ++ joinSep sep (y :: ys)

def noDDb (s : List Char) : Bool :=
  match findDD s with
  | none => true
  | some _ => false

def lastNotDollar : List Char → Bool
  | [] => true
  | [c] => if c = '$' then false else true
  | _ :: c :: rest => lastNotDollar (c :: rest)

def headNotDollar : List Char → Bool
  | [] => true
  | c :: _ => if c = '$' then false else true

def okSegs : List (List Char) → Bool
  | [] => true
  | [x] => noDDb x
  | x :: y :: ys => noDDb x && lastNotDollar x && okSegs (y :: ys)

/-! ### Concrete fixtures used by witnesses and counterexamples -/

def allOpen : String → Bool := fun _ => true

def st0 : ShellState := ⟨-5, -5, 0⟩

def env0 : ForkEnv := ⟨99, 99, allOpen, allOpen, -5, 0⟩

/-- C1: the claim says that before any foreground command has completed
(exit_method still holds the initial sentinel -5), the status built-in
reports "exit value 0".  In fact WIFEXITED(-5) is false (-5 masked to its
low seven bits is 123), so status_command renders the sentinel as
"terminated by signal 123", refuting the claim. -/
theorem c1_initial_status_reports_signal_123 :
    status_command exit_method_init = Msg.terminatedBySignal 123 ∧
    status_command exit_method_init ≠ Msg.exitValue 0 := by
  constructor <;> decide

/-- C2: the claim says reaping a background child leaves the stored
last-foreground-completion status unchanged.  In fact waitpid in
check_background_processes stores the background child's status into the
same global exit_method that status_command reads: starting from
exit_method = 0 and reaping child 42 with status 256 leaves exit_method =
256, so a subsequent status reports "exit value 1", not the foreground
value. -/
theorem c2_reaper_overwrites_exit_method :
    (check_background_processes 1 0 (some (42, 256))).exit_method = 256 ∧
    status_command (check_background_processes 1 0 (some (42, 256))).exit_method ≠
      status_command 0 := by
  constructor <;> decide

/-- C3: the claim says the reaper reports the completed child's pid and its
exit value or terminating signal and decrements the count of unreaped
background children by one.  The reporting part holds, but the source never
decrements num_background_process: reaping one child with the count at 2
leaves the count at 2 (the claim demands 1). -/
theorem c3_reaper_reports_but_never_decrements :
    check_background_processes 2 7 (some (43, 9)) =
      ⟨2, 9, [Msg.backgroundPidIsDone 43, Msg.terminatedBySignal 9]⟩ ∧
    (check_background_processes 2 7 (some (43, 9))).num_background_process ≠ 1 := by
  constructor <;> decide

/-- C6: the claim says the exit built-in kills the shell's process group and
then terminates the shell itself with a normal exit of code 0, never by
signal.  The group-wide SIGTERM does go out, but it includes the shell
itself: SIGTERM keeps its default disposition throughout the run (only
SIGINT and SIGTSTP are changed by deal_with_signals), and POSIX delivers
the self-directed SIGTERM before kill() returns, so the shell dies by
signal 15 and the following exit(0) is unreachable. -/
theorem c6_exit_dies_by_sigterm :
    (exit_shell shellDispositions).killGroupSignal = SIGTERM ∧
    (exit_shell shellDispositions).outcome = Termination.signaled 15 ∧
    (exit_shell shellDispositions).outcome ≠ Termination.exited 0 := by
  refine ⟨rfl, by decide, by decide⟩

/-! ### Loop lemmas about the redirection scan -/

/-- An index once recorded in args_to_remove stays recorded. -/
theorem redirLoop_removed_mono (openW openR : String → Bool) (bg : Bool) (args : List String) :
    ∀ (suffix : List String) (i : Nat) (outF inF : FileVal) (removes : List Nat)
      (so si : List FdSrc) (x : Nat), x ∈ removes →
      x ∈ (redirLoop openW openR bg args suffix i outF inF removes so si).removed := by
  intro suffix
  induction suffix with
  | nil => intro i outF inF removes so si x hx; simpa [redirLoop, redirFinish] using hx
  | cons a tail ih =>
    intro i outF inF removes so si x hx
    cases tail with
    | nil => simpa [redirLoop, redirFinish] using hx
    | cons b rest =>
      by_cases hgt : a = ">"
      · by_cases hw : openW b
        · simpa [redirLoop, hgt, hw] using
            ih (i + 1) (FileVal.fd b) inF (removes ++ [i, i + 1]) (so ++ [FdSrc.file b]) si x
              (by simp [hx])
        · simpa [redirLoop, hgt, hw] using hx
      · by_cases hlt : a = "<"
        · by_cases hr : openR b
          · simpa [redirLoop, hgt, hlt, hr] using
              ih (i + 1) outF (FileVal.fd b) (removes ++ [i, i + 1]) so (si ++ [FdSrc.file b]) x
                (by simp [hx])
          · simpa [redirLoop, hgt, hlt, hr] using hx
        · simpa [redirLoop, hgt, hlt] using ih (i + 1) outF inF removes so si x hx

/-- If l.drop i has head a then l[i]? is a. -/
theorem getElem?_of_drop {α : Type} :
    ∀ (i : Nat) (l : List α) (a : α) (t : List α), l.drop i = a :: t → l[i]? = some a := by
  intro i
  induction i with
  | zero => intro l a t h; simp at h; simp [h]
  | succ i ih =>
    intro l a t h
    cases l with
    | nil => simp at h
    | cons c cs =>
      rw [List.drop_succ_cons] at h
      simpa using ih cs a t h

/-- When the scan returns 0, every operator it visited (any "<" or ">" at an
index with a following token) had its two indices recorded for removal. -/
theorem redirLoop_ret0_scanned (openW openR : String → Bool) (bg : Bool) (args : List String) :
    ∀ (suffix : List String) (i : Nat) (outF inF : FileVal) (removes : List Nat)
      (so si : List FdSrc),
      args.drop i = suffix →
      (redirLoop openW openR bg args suffix i outF inF removes so si).ret = 0 →
      ∀ j, i ≤ j → j + 1 < args.length →
        (args[j]? = some "<" ∨ args[j]? = some ">") →
        j ∈ (redirLoop openW openR bg args suffix i outF inF removes so si).removed ∧
        j + 1 ∈ (redirLoop openW openR bg args suffix i outF inF removes so si).removed := by
  intro suffix
  induction suffix with
  | nil =>
    intro i outF inF removes so si hdrop hret j hij hj hop
    have hlen : args.length ≤ i := List.drop_eq_nil_iff.mp hdrop
    omega
  | cons a tail ih =>
    intro i outF inF removes so si hdrop hret j hij hj hop
    cases tail with
    | nil =>
      have hlen : args.length - i = 1 := by
        have := congrArg List.length hdrop
        simpa using this
      omega
    | cons b rest =>
      have hai : args[i]? = some a := getElem?_of_drop i args a (b :: rest) hdrop
      have hdrop2 : args.drop (i + 1) = b :: rest := by
        have := congrArg (List.drop 1) hdrop
        simpa [List.drop_drop] using this
      by_cases hgt : a = ">"
      · by_cases hw : openW b
        · simp only [redirLoop, hgt, hw, if_true, if_pos] at hret ⊢
          rcases Nat.lt_or_ge i j with hlt | hge
          · exact ih (i + 1) (FileVal.fd b) inF (removes ++ [i, i + 1])
              (so ++ [FdSrc.file b]) si hdrop2 hret j hlt hj hop
          · have hji : j = i := by omega
            subst hji
            constructor
            · exact redirLoop_removed_mono openW openR bg args (b :: rest) (j + 1)
                (FileVal.fd b) inF (removes ++ [j, j + 1]) (so ++ [FdSrc.file b]) si j (by simp)
            · exact redirLoop_removed_mono openW openR bg args (b :: rest) (j + 1)
                (FileVal.fd b) inF (removes ++ [j, j + 1]) (so ++ [FdSrc.file b]) si (j + 1)
                (by simp)
        · simp [redirLoop, hgt, hw] at hret
      · by_cases hlt : a = "<"
        · by_cases hr : openR b
          · simp only [redirLoop, hgt, hlt, hr, if_true, if_false, if_pos, if_neg,
              not_false_iff] at hret ⊢
            rcases Nat.lt_or_ge i j with hlt2 | hge
            · exact ih (i + 1) outF (FileVal.fd b) (removes ++ [i, i + 1]) so
                (si ++ [FdSrc.file b]) hdrop2 hret j hlt2 hj hop
            · have hji : j = i := by omega
              subst hji
              constructor
              · exact redirLoop_removed_mono openW openR bg args (b :: rest) (j + 1)
                  outF (FileVal.fd b) (removes ++ [j, j + 1]) so (si ++ [FdSrc.file b]) j (by simp)
              · exact redirLoop_removed_mono openW openR bg args (b :: rest) (j + 1)
                  outF (FileVal.fd b) (removes ++ [j, j + 1]) so (si ++ [FdSrc.file b]) (j + 1)
                  (by simp)
          · simp [redirLoop, hgt, hlt, hr] at hret
        · simp only [redirLoop, hgt, hlt, if_false, if_neg, not_false_iff] at hret ⊢
          rcases Nat.lt_or_ge i j with hlt2 | hge
          · exact ih (i + 1) outF inF removes so si hdrop2 hret j hlt2 hj hop
          · have hji : j = i := by omega
            subst hji
            rw [hai] at hop
            rcases hop with hop | hop <;> simp_all


/-- When the scan returns 0 it reached the code after the loop, so argsAfter
is args with exactly the recorded indices overwritten by NULL. -/
theorem redirLoop_argsAfter (openW openR : String → Bool) (bg : Bool) (args : List String) :
    ∀ (suffix : List String) (i : Nat) (outF inF : FileVal) (removes : List Nat)
      (so si : List FdSrc),
      (redirLoop openW openR bg args suffix i outF inF removes so si).ret = 0 →
      (redirLoop openW openR bg args suffix i outF inF removes so si).argsAfter =
        nullify args 0 (redirLoop openW openR bg args suffix i outF inF removes so si).removed := by
  intro suffix
  induction suffix with
  | nil => intro i outF inF removes so si _; simp [redirLoop, redirFinish]
  | cons a tail ih =>
    intro i outF inF removes so si hret
    cases tail with
    | nil => simp [redirLoop, redirFinish]
    | cons b rest =>
      by_cases hgt : a = ">"
      · by_cases hw : openW b
        · simp only [redirLoop, hgt, hw, if_true, if_pos] at hret ⊢
          exact ih (i + 1) (FileVal.fd b) inF (removes ++ [i, i + 1]) (so ++ [FdSrc.file b]) si hret
        · simp [redirLoop, hgt, hw] at hret
      · by_cases hlt : a = "<"
        · by_cases hr : openR b
          · simp only [redirLoop, hgt, hlt, hr, if_true, if_false, if_pos, if_neg,
              not_false_iff] at hret ⊢
            exact ih (i + 1) outF (FileVal.fd b) (removes ++ [i, i + 1]) so
              (si ++ [FdSrc.file b]) hret
          · simp [redirLoop, hgt, hlt, hr] at hret
        · simp only [redirLoop, hgt, hlt, if_false, if_neg, not_false_iff] at hret ⊢
          exact ih (i + 1) outF inF removes so si hret

/-- A recorded index is overwritten by NULL. -/
theorem nullify_getElem_none :
    ∀ (l : List String) (idx : Nat) (removes : List Nat) (j : Nat),
      j < l.length → (idx + j) ∈ removes → (nullify l idx removes)[j]? = some none := by
  intro l
  induction l with
  | nil => intro idx removes j hj _; simp at hj
  | cons a rest ih =>
    intro idx removes j hj hmem
    cases j with
    | zero => simpa [nullify] using hmem
    | succ j =>
      have hmem2 : (idx + 1) + j ∈ removes := by
        have : (idx + 1) + j = idx + (j + 1) := by omega
        rwa [this]
      simpa [nullify] using ih (idx + 1) removes j (by simpa using Nat.lt_of_succ_lt_succ hj) hmem2

/-- The argv execvp reads stops at the first NULL entry. -/
theorem untilNone_length_le :
    ∀ (l : List (Option String)) (j : Nat), l[j]? = some none → (untilNone l).length ≤ j := by
  intro l
  induction l with
  | nil => intro j h; simp at h
  | cons o rest ih =>
    intro j h
    cases o with
    | none => simp [untilNone]
    | some a =>
      cases j with
      | zero => simp at h
      | succ j =>
        have := ih j (by simpa using h)
        simp only [untilNone, List.length_cons]
        omega

/-- What survives until the first NULL is an unchanged initial segment of the
original argument list. -/
theorem untilNone_nullify_take :
    ∀ (l : List String) (idx : Nat) (removes : List Nat),
      untilNone (nullify l idx removes) =
        l.take (untilNone (nullify l idx removes)).length := by
  intro l
  induction l with
  | nil => intro idx removes; simp [nullify, untilNone]
  | cons a rest ih =>
    intro idx removes
    by_cases hmem : idx ∈ removes
    · simp [nullify, hmem, untilNone]
    · simp only [nullify, hmem, if_neg, not_false_iff, untilNone, List.length_cons,
        List.take_succ_cons, List.cons.injEq, true_and]
      exact ih (idx + 1) removes

/-- With an empty removal list the NULL overwrite changes nothing. -/
theorem nullify_nil_removes : ∀ (l : List String) (idx : Nat), nullify l idx [] = l.map some := by
  intro l
  induction l with
  | nil => intro idx; simp [nullify]
  | cons a rest ih => intro idx; simp [nullify, ih]

/-- untilNone of a NULL-free list is the list itself. -/
theorem untilNone_map_some : ∀ (l : List String), untilNone (l.map some) = l := by
  intro l
  induction l with
  | nil => simp [untilNone]
  | cons a rest ih => simp [untilNone, ih]

/-- If no scannable index holds an operator the loop falls through to the
code after the loop with nothing recorded and nothing opened. -/
theorem redirLoop_no_ops (openW openR : String → Bool) (bg : Bool) (args : List String) :
    ∀ (suffix : List String) (i : Nat) (outF inF : FileVal) (removes : List Nat)
      (so si : List FdSrc),
      (∀ a ∈ suffix.dropLast, a ≠ ">" ∧ a ≠ "<") →
      redirLoop openW openR bg args suffix i outF inF removes so si =
        redirFinish args bg outF inF removes so si := by
  intro suffix
  induction suffix with
  | nil => intro i outF inF removes so si _; simp [redirLoop]
  | cons a tail ih =>
    intro i outF inF removes so si h
    cases tail with
    | nil => simp [redirLoop]
    | cons b rest =>
      have ha : a ≠ ">" ∧ a ≠ "<" := h a (by simp [List.dropLast_cons₂])
      have htail : ∀ x ∈ (b :: rest).dropLast, x ≠ ">" ∧ x ≠ "<" := by
        intro x hx
        exact h x (by simp [List.dropLast_cons₂, hx])
      simp only [redirLoop, ha.1, ha.2, if_false, if_neg, not_false_iff]
      exact ih (i + 1) outF inF removes so si htail

/-- The input_file variable of the scan is never written while no "<" is
visited: the stdin attachments of a foreground command are then decided by
the if (input_file != -5) test on the never-assigned initial value. -/
theorem redirLoop_stdin_no_input_op (openW openR : String → Bool) (args : List String)
    (junkIn : Int) :
    ∀ (suffix : List String) (i : Nat) (outF : FileVal) (removes : List Nat)
      (so si : List FdSrc),
      (∀ a ∈ suffix, a ≠ "<") →
      (redirLoop openW openR false args suffix i outF (FileVal.intVal junkIn)
          removes so si).ret = 0 →
      (redirLoop openW openR false args suffix i outF (FileVal.intVal junkIn)
          removes so si).stdinActs =
        (if junkIn = -5 then si else si ++ [FdSrc.lit junkIn]) := by
  intro suffix
  induction suffix with
  | nil =>
    intro i outF removes so si _ _
    by_cases hj : junkIn = -5 <;>
      simp [redirLoop, redirFinish, fdSrcOf, hj]
  | cons a tail ih =>
    intro i outF removes so si h hret
    cases tail with
    | nil =>
      by_cases hj : junkIn = -5 <;>
        simp [redirLoop, redirFinish, fdSrcOf, hj]
    | cons b rest =>
      have ha : a ≠ "<" := h a (by simp)
      have htail : ∀ x ∈ b :: rest, x ≠ "<" := fun x hx => h x (by simp [hx])
      by_cases hgt : a = ">"
      · by_cases hw : openW b
        · simp only [redirLoop, hgt, hw, if_true, if_pos] at hret ⊢
          exact ih (i + 1) (FileVal.fd b) (removes ++ [i, i + 1]) (so ++ [FdSrc.file b]) si
            htail hret
        · simp [redirLoop, hgt, hw] at hret
      · simp only [redirLoop, hgt, ha, if_false, if_neg, not_false_iff] at hret ⊢
        exact ih (i + 1) outF removes so si htail hret

/-- C9: for a dispatched command whose redirection scan succeeded, any "<" or
">" operator sitting at a scannable index (one with a following token) was
excised together with its path token: both slots of args are NULL
afterwards, and the argument vector execvp receives — the entries before
the first NULL — ends strictly before the operator's index, so neither
member of the pair reaches the executed program. -/
theorem c9_redirection_pair_excised (openW openR : String → Bool) (args : List String)
    (bg : Bool) (junkIn : Int) (i : Nat)
    (hret : (redirection openW openR args bg junkIn).ret = 0)
    (hi : i + 1 < args.length)
    (hop : args[i]? = some "<" ∨ args[i]? = some ">") :
    (redirection openW openR args bg junkIn).argsAfter[i]? = some none ∧
    (redirection openW openR args bg junkIn).argsAfter[i + 1]? = some none ∧
    (untilNone (redirection openW openR args bg junkIn).argsAfter).length ≤ i := by
  have hscan := redirLoop_ret0_scanned openW openR bg args args 0
    (FileVal.intVal (-5)) (FileVal.intVal junkIn) [] [] [] rfl hret i (Nat.zero_le i) hi hop
  have hAfter := redirLoop_argsAfter openW openR bg args args 0
    (FileVal.intVal (-5)) (FileVal.intVal junkIn) [] [] [] hret
  have h1 : (redirection openW openR args bg junkIn).argsAfter[i]? = some none := by
    rw [redirection, hAfter]
    exact nullify_getElem_none args 0 _ i (by omega) (by simpa using hscan.1)
  have h2 : (redirection openW openR args bg junkIn).argsAfter[i + 1]? = some none := by
    rw [redirection, hAfter]
    exact nullify_getElem_none args 0 _ (i + 1) (by omega) (by simpa using hscan.2)
  exact ⟨h1, h2, untilNone_length_le _ i h1⟩

/-- C9 witness: `cat < in` with a successful open: both slots of the pair are
NULL afterwards and the surviving argv stops before index 1. -/
theorem c9_witness :
    (redirection allOpen allOpen ["cat", "<", "in"] false (-5)).ret = 0 ∧
    (1 + 1 < (["cat", "<", "in"] : List String).length) ∧
    ((["cat", "<", "in"] : List String)[1]? = some "<" ∨
      (["cat", "<", "in"] : List String)[1]? = some ">") ∧
    ((redirection allOpen allOpen ["cat", "<", "in"] false (-5)).argsAfter[1]? = some none ∧
     (redirection allOpen allOpen ["cat", "<", "in"] false (-5)).argsAfter[1 + 1]? = some none ∧
     (untilNone (redirection allOpen allOpen ["cat", "<", "in"] false (-5)).argsAfter).length ≤ 1) :=
  ⟨by decide, by decide, by decide,
    c9_redirection_pair_excised allOpen allOpen ["cat", "<", "in"] false (-5) 1
      (by decide) (by decide) (by decide)⟩

/-- C10: when the scan succeeded and an operator with its path stood at a
scannable index i, the argument vector passed to execvp is an unchanged
initial segment of the argument list that ends at or before index i — the
NULL written into slot i (or an earlier removed slot) truncates the argv,
so no token at an index greater than i reaches the executed program. -/
theorem c10_args_after_pair_dropped (openW openR : String → Bool) (args : List String)
    (bg : Bool) (junkIn : Int) (i : Nat)
    (hret : (redirection openW openR args bg junkIn).ret = 0)
    (hi : i + 1 < args.length)
    (hop : args[i]? = some "<" ∨ args[i]? = some ">") :
    untilNone (redirection openW openR args bg junkIn).argsAfter =
      args.take (untilNone (redirection openW openR args bg junkIn).argsAfter).length ∧
    (untilNone (redirection openW openR args bg junkIn).argsAfter).length ≤ i := by
  have hscan := redirLoop_ret0_scanned openW openR bg args args 0
    (FileVal.intVal (-5)) (FileVal.intVal junkIn) [] [] [] rfl hret i (Nat.zero_le i) hi hop
  have hAfter := redirLoop_argsAfter openW openR bg args args 0
    (FileVal.intVal (-5)) (FileVal.intVal junkIn) [] [] [] hret
  have h1 : (redirection openW openR args bg junkIn).argsAfter[i]? = some none := by
    rw [redirection, hAfter]
    exact nullify_getElem_none args 0 _ i (by omega) (by simpa using hscan.1)
  constructor
  · rw [redirection, hAfter]
    exact untilNone_nullify_take args 0 _
  · exact untilNone_length_le _ i h1

/-- C10 witness: `ls > out -la`: the argv that reaches execvp is just
["ls"]; the trailing "-la" is dropped along with the pair. -/
theorem c10_witness :
    (redirection allOpen allOpen ["ls", ">", "out", "-la"] false (-5)).ret = 0 ∧
    (1 + 1 < (["ls", ">", "out", "-la"] : List String).length) ∧
    ((["ls", ">", "out", "-la"] : List String)[1]? = some "<" ∨
      (["ls", ">", "out", "-la"] : List String)[1]? = some ">") ∧
    (untilNone (redirection allOpen allOpen ["ls", ">", "out", "-la"] false (-5)).argsAfter =
      (["ls", ">", "out", "-la"] : List String).take
        (untilNone (redirection allOpen allOpen ["ls", ">", "out", "-la"] false (-5)).argsAfter).length ∧
     (untilNone (redirection allOpen allOpen ["ls", ">", "out", "-la"] false (-5)).argsAfter).length ≤ 1) :=
  ⟨by decide, by decide, by decide,
    c10_args_after_pair_dropped allOpen allOpen ["ls", ">", "out", "-la"] false (-5) 1
      (by decide) (by decide) (by decide)⟩

/-- C4 counterexample: the claim says a command line with a "<" or ">" at the
final position (no following path) is treated as an error and never exec'd.
On `ls >` the scan loop, whose guard is i < count - 1, never examines the
final index: redirection returns 0 and the child reaches execvp with the
">" still in its argument vector. -/
theorem c4_counterexample :
    (redirection allOpen allOpen ["ls", ">"] false (-5)).ret = 0 ∧
    (run_fork 0 ["ls", ">"] st0 env0).child.map ChildSide.act =
      some (ChildAct.execs ["ls", ">"]) := by
  constructor <;> decide

/-- C4 amended: an operator at the final position is simply ignored.  For
any argument list whose scannable positions (all but the last) hold no
operator — the final token is unconstrained and may well be "<" or ">" —
redirection reports no error and the argument vector reaching execvp is the
whole list, trailing operator included. -/
theorem c4_amended_trailing_op_ignored (openW openR : String → Bool) (bg : Bool)
    (junkIn : Int) (args : List String)
    (h : ∀ a ∈ args.dropLast, a ≠ ">" ∧ a ≠ "<") :
    (redirection openW openR args bg junkIn).ret = 0 ∧
    untilNone (redirection openW openR args bg junkIn).argsAfter = args := by
  rw [redirection, redirLoop_no_ops openW openR bg args args 0 _ _ _ _ _ h]
  constructor
  · rfl
  · show untilNone (nullify args 0 []) = args
    rw [nullify_nil_removes]
    exact untilNone_map_some args

/-- C4 witness: `ls >` at the concrete input. -/
theorem c4_witness :
    (∀ a ∈ (["ls", ">"] : List String).dropLast, a ≠ ">" ∧ a ≠ "<") ∧
    ((redirection allOpen allOpen ["ls", ">"] false (-5)).ret = 0 ∧
      untilNone (redirection allOpen allOpen ["ls", ">"] false (-5)).argsAfter = ["ls", ">"]) :=
  ⟨by decide, c4_amended_trailing_op_ignored allOpen allOpen false (-5) ["ls", ">"] (by decide)⟩

/-- C5 counterexample: the claim says that for a foreground command without
"<" the decision not to reattach stdin never depends on reading a variable
that was never assigned, and stdin stays untouched.  The source reads the
uninitialised input_file in the `if (input_file != -5)` test: with
indeterminate initial value 7 the child attempts dup2(7, 0), with -5 it
does not — two runs of `ls` differing only in stack garbage differ in what
happens to stdin. -/
theorem c5_counterexample :
    (redirection allOpen allOpen ["ls"] false 7).stdinActs ≠
      (redirection allOpen allOpen ["ls"] false (-5)).stdinActs ∧
    (redirection allOpen allOpen ["ls"] false 7).stdinActs ≠ [] := by
  constructor <;> decide

/-- C5 amended: for a foreground command whose token list contains no "<",
whether stdin is reattached depends on the indeterminate initial value of
input_file: nothing is dup2'ed onto stdin exactly when that value happens
to be -5, and otherwise dup2 of the garbage value onto descriptor 0 is
attempted. -/
theorem c5_amended_stdin_depends_on_junk (openW openR : String → Bool) (args : List String)
    (junkIn : Int) (hnoin : "<" ∉ args)
    (hret : (redirection openW openR args false junkIn).ret = 0) :
    (redirection openW openR args false junkIn).stdinActs =
      (if junkIn = -5 then [] else [FdSrc.lit junkIn]) := by
  have h := redirLoop_stdin_no_input_op openW openR args junkIn args 0
    (FileVal.intVal (-5)) [] [] []
    (fun a ha => by rintro rfl; exact hnoin ha) hret
  rw [redirection] at hret ⊢
  rw [h]
  by_cases hj : junkIn = -5 <;> simp [hj]

/-- C5 witness: `ls` foreground with stack garbage 7 in input_file. -/
theorem c5_witness :
    ("<" ∉ (["ls"] : List String)) ∧
    (redirection allOpen allOpen ["ls"] false 7).ret = 0 ∧
    (redirection allOpen allOpen ["ls"] false 7).stdinActs =
      (if (7 : Int) = -5 then [] else [FdSrc.lit 7]) :=
  ⟨by decide, by decide,
    c5_amended_stdin_depends_on_junk allOpen allOpen ["ls"] 7 (by decide) (by decide)⟩

/-- C8: while the foreground-only flag z_mode is set, a command with a
trailing "&" is dispatched exactly like the same command without it: the
"&" is stripped but background_command stays 0, so the fork, the child's
signal and redirection treatment, the parent's blocking wait, the recorded
status and every message printed coincide with the plain dispatch. -/
theorem c8_foreground_only_ignores_amp (args : List String) (st : ShellState) (env : ForkEnv)
    (_hne : args ≠ []) (hlast : args.getLast? ≠ some "&") :
    run_fork 1 (args ++ ["&"]) st env = run_fork 1 args st env := by
  have hstrip : stripAmp 1 (args ++ ["&"]) = stripAmp 1 args := by
    rw [stripAmp, stripAmp]
    rw [List.getLast?_concat]
    simp [List.dropLast_concat, hlast]
  rw [run_fork, run_fork, hstrip]

/-- C8 witness: `ls &` and `ls` dispatched with the flag set coincide. -/
theorem c8_witness :
    ((["ls"] : List String) ≠ []) ∧
    ((["ls"] : List String).getLast? ≠ some "&") ∧
    run_fork 1 (["ls"] ++ ["&"]) st0 env0 = run_fork 1 ["ls"] st0 env0 :=
  ⟨by decide, by decide,
    c8_foreground_only_ignores_amp ["ls"] st0 env0 (by decide) (by decide)⟩

/-! ### Lemmas about the expander -/

theorem findDD_cons_cons (c d : Char) (rest : List Char) :
    findDD (c :: d :: rest) =
      if c = '$' ∧ d = '$' then some ([], rest)
      else
        match findDD (d :: rest) with
        | some p => some (c :: p.1, p.2)
        | none => none := rfl

theorem noDDb_iff (s : List Char) : noDDb s = true ↔ findDD s = none := by
  cases h : findDD s <;> simp [noDDb, h]

theorem findDD_eq_none_of_no_dollar :
    ∀ (s : List Char), (∀ c ∈ s, ¬ c = '$') → findDD s = none := by
  intro s
  induction s with
  | nil => intro _; rfl
  | cons c tail ih =>
    intro h
    cases tail with
    | nil => rfl
    | cons d rest =>
      rw [findDD_cons_cons, if_neg (by intro hc; exact h c (by simp) hc.1)]
      rw [ih (fun x hx => h x (by simp [hx]))]

theorem headNotDollar_of_no_dollar (s : List Char) (h : ∀ c ∈ s, ¬ c = '$') :
    headNotDollar s = true := by
  cases s with
  | nil => rfl
  | cons c t => simp [headNotDollar, h c (by simp)]

theorem lastNotDollar_cons_cons (a c : Char) (rest : List Char) :
    lastNotDollar (a :: c :: rest) = lastNotDollar (c :: rest) := rfl

theorem lastNotDollar_of_no_dollar :
    ∀ (s : List Char), (∀ c ∈ s, ¬ c = '$') → lastNotDollar s = true := by
  intro s
  induction s with
  | nil => intro _; rfl
  | cons c tail ih =>
    intro h
    cases tail with
    | nil => simp [lastNotDollar, h c (by simp)]
    | cons d rest =>
      rw [lastNotDollar_cons_cons]
      exact ih (fun x hx => h x (by simp [hx]))

theorem lastNotDollar_append :
    ∀ (a b : List Char), b ≠ [] → lastNotDollar b = true → lastNotDollar (a ++ b) = true := by
  intro a
  induction a with
  | nil => intro b _ hb; simpa using hb
  | cons c cs ih =>
    intro b hbne hb
    have hne : cs ++ b ≠ [] := by
      intro hx
      exact hbne (List.append_eq_nil.mp hx).2
    cases hcb : cs ++ b with
    | nil => exact absurd hcb hne
    | cons e es =>
      show lastNotDollar (c :: (cs ++ b)) = true
      rw [hcb, lastNotDollar_cons_cons, ← hcb]
      exact ih b hbne hb

theorem findDD_append_none :
    ∀ (a b : List Char), findDD a = none → findDD b = none →
      (lastNotDollar a = true ∨ headNotDollar b = true) → findDD (a ++ b) = none := by
  intro a
  induction a with
  | nil => intro b _ hb _; simpa using hb
  | cons c cs ih =>
    intro b ha hb hglue
    cases cs with
    | nil =>
      cases b with
      | nil => rfl
      | cons d t =>
        have hcd : ¬ (c = '$' ∧ d = '$') := by
          rintro ⟨hc, hd⟩
          rcases hglue with hg | hg
          · rw [hc] at hg; simp [lastNotDollar] at hg
          · rw [hd] at hg; simp [headNotDollar] at hg
        show findDD (c :: d :: t) = none
        rw [findDD_cons_cons, if_neg hcd, hb]
    | cons c2 cs2 =>
      rw [findDD_cons_cons] at ha
      by_cases hcd : c = '$' ∧ c2 = '$'
      · rw [if_pos hcd] at ha; simp at ha
      · rw [if_neg hcd] at ha
        have htail : findDD (c2 :: cs2) = none := by
          cases h2 : findDD (c2 :: cs2) with
          | none => rfl
          | some p => rw [h2] at ha; simp at ha
        have hglue2 : lastNotDollar (c2 :: cs2) = true ∨ headNotDollar b = true := by
          rcases hglue with hg | hg
          · exact Or.inl (by rw [← lastNotDollar_cons_cons c c2 cs2]; exact hg)
          · exact Or.inr hg
        have hrec : findDD ((c2 :: cs2) ++ b) = none := ih b htail hb hglue2
        show findDD (c :: c2 :: (cs2 ++ b)) = none
        rw [findDD_cons_cons, if_neg hcd]
        rw [show findDD (c2 :: (cs2 ++ b)) = none from hrec]

theorem findDD_prefix :
    ∀ (x t : List Char), findDD x = none → lastNotDollar x = true →
      findDD (x ++ '$' :: '$' :: t) = some (x, t) := by
  intro x
  induction x with
  | nil =>
    intro t _ _
    show findDD ('$' :: '$' :: t) = some ([], t)
    rw [findDD_cons_cons, if_pos ⟨rfl, rfl⟩]
  | cons c cs ih =>
    intro t ha hlast
    cases cs with
    | nil =>
      have hc : ¬ c = '$' := by
        intro hcontra; rw [hcontra] at hlast; simp [lastNotDollar] at hlast
      have hinner : findDD ('$' :: '$' :: t) = some ([], t) := by
        rw [findDD_cons_cons, if_pos ⟨rfl, rfl⟩]
      show findDD (c :: '$' :: '$' :: t) = some ([c], t)
      rw [findDD_cons_cons, if_neg (by rintro ⟨hcc, _⟩; exact hc hcc), hinner]
    | cons c2 cs2 =>
      rw [findDD_cons_cons] at ha
      by_cases hcd : c = '$' ∧ c2 = '$'
      · rw [if_pos hcd] at ha; simp at ha
      · rw [if_neg hcd] at ha
        have htail : findDD (c2 :: cs2) = none := by
          cases h2 : findDD (c2 :: cs2) with
          | none => rfl
          | some p => rw [h2] at ha; simp at ha
        have hlast2 : lastNotDollar (c2 :: cs2) = true := by
          rw [← lastNotDollar_cons_cons c c2 cs2]; exact hlast
        have hrec := ih t htail hlast2
        show findDD (c :: c2 :: (cs2 ++ '$' :: '$' :: t)) = some (c :: c2 :: cs2, t)
        rw [findDD_cons_cons, if_neg hcd]
        rw [show findDD (c2 :: (cs2 ++ '$' :: '$' :: t)) = some (c2 :: cs2, t) from hrec]

theorem joinSep_cons_cons (sep x y : List Char) (ys : List (List Char)) :
    joinSep sep (x :: y :: ys) = x ++ sep ++ joinSep sep (y :: ys) := rfl

theorem joinSep_merge (sep pid x y : List Char) (ys : List (List Char)) :
    joinSep sep ((x ++ pid ++ y) :: ys) = x ++ pid ++ joinSep sep (y :: ys) := by
  cases ys with
  | nil => rfl
  | cons z zs => simp [joinSep_cons_cons, List.append_assoc]

theorem joinSep_length_mono (s1 s2 : List Char) (h : s1.length ≤ s2.length) :
    ∀ l, (joinSep s1 l).length ≤ (joinSep s2 l).length := by
  intro l
  induction l with
  | nil => simp [joinSep]
  | cons x tail ih =>
    cases tail with
    | nil => simp [joinSep]
    | cons y ys =>
      simp only [joinSep_cons_cons, List.length_append]
      omega

theorem segsLen_le_joinSep (segs : List (List Char)) :
    segs.length ≤ (joinSep dd segs).length + 1 := by
  induction segs with
  | nil => simp [joinSep]
  | cons x tail ih =>
    cases tail with
    | nil => simp [joinSep]
    | cons y ys =>
      have hdd : dd.length = 2 := rfl
      simp only [joinSep_cons_cons, List.length_append, List.length_cons] at *
      omega

theorem okSegs_head_noDD (y : List Char) (ys : List (List Char))
    (h : okSegs (y :: ys) = true) : noDDb y = true := by
  cases ys with
  | nil => simpa [okSegs] using h
  | cons z zs =>
    have := by simpa [okSegs, Bool.and_eq_true] using h
    exact this.1.1

/-- Core of C7: running the expansion loop on a line presented as segments
joined by the token, with enough fuel, substitutes the pid digits for every
separator and changes nothing else. -/
theorem expandLoop_joinSep (pid : List Char) (hne : pid ≠ [])
    (hnd : ∀ c ∈ pid, ¬ c = '$') :
    ∀ (n : Nat) (segs : List (List Char)) (fuel : Nat),
      segs.length = n → segs.length ≤ fuel + 1 → okSegs segs = true →
      (joinSep dd segs).length ≤ MAX_COMMAND_LENGTH - 1 →
      (joinSep pid segs).length ≤ MAX_COMMAND_LENGTH - 1 →
      expandLoop pid fuel (joinSep dd segs) = joinSep pid segs := by
  intro n
  induction n with
  | zero =>
    intro segs fuel hlen _ _ _ _
    have hnil : segs = [] := List.length_eq_zero.mp hlen
    subst hnil
    cases fuel with
    | zero => rfl
    | succ f => rfl
  | succ n ih =>
    intro segs fuel hlen hfuel hok h1 h2
    cases segs with
    | nil => simp at hlen
    | cons x tail =>
      cases tail with
      | nil =>
        have hfx : findDD x = none :=
          (noDDb_iff x).mp (by simpa [okSegs] using hok)
        cases fuel with
        | zero => rfl
        | succ f =>
          show expandLoop pid (f + 1) x = x
          simp [expandLoop, hfx]
      | cons y ys =>
        obtain ⟨⟨hndd_x, hlast_x⟩, hok_tail⟩ :
            (noDDb x = true ∧ lastNotDollar x = true) ∧ okSegs (y :: ys) = true := by
          simpa [okSegs, Bool.and_eq_true] using hok
        have hfx : findDD x = none := (noDDb_iff x).mp hndd_x
        cases fuel with
        | zero =>
          exfalso
          simp only [List.length_cons] at hfuel
          omega
        | succ f =>
          have hfind : findDD (joinSep dd (x :: y :: ys)) =
              some (x, joinSep dd (y :: ys)) := by
            rw [joinSep_cons_cons]
            rw [show x ++ dd ++ joinSep dd (y :: ys) =
                x ++ ('$' :: '$' :: joinSep dd (y :: ys)) by simp [dd]]
            exact findDD_prefix x (joinSep dd (y :: ys)) hfx hlast_x
          have hmid_eq : x ++ pid ++ joinSep dd (y :: ys) =
              joinSep dd ((x ++ pid ++ y) :: ys) := (joinSep_merge dd pid x y ys).symm
          have hmid_len :
              (x ++ pid ++ joinSep dd (y :: ys)).length ≤ MAX_COMMAND_LENGTH - 1 := by
            rcases Nat.le_total pid.length 2 with hp | hp
            · rw [joinSep_cons_cons] at h1
              have hdd : dd.length = 2 := rfl
              simp only [List.length_append] at h1 ⊢
              omega
            · have hmono := joinSep_length_mono dd pid (by simpa [dd] using hp) (y :: ys)
              rw [joinSep_cons_cons] at h2
              simp only [List.length_append] at h2 ⊢
              omega
          have htake :
              List.take (MAX_COMMAND_LENGTH - 1) (x ++ pid ++ joinSep dd (y :: ys)) =
                x ++ pid ++ joinSep dd (y :: ys) := List.take_of_length_le hmid_len
          -- the merged head contains no token and, unless last, does not end in a dollar
          have hfp : findDD pid = none := findDD_eq_none_of_no_dollar pid hnd
          have hfxp : findDD (x ++ pid) = none :=
            findDD_append_none x pid hfx hfp (Or.inr (headNotDollar_of_no_dollar pid hnd))
          have hlastxp : lastNotDollar (x ++ pid) = true :=
            lastNotDollar_append x pid hne (lastNotDollar_of_no_dollar pid hnd)
          have hfy : findDD y = none := (noDDb_iff y).mp (okSegs_head_noDD y ys hok_tail)
          have hfmerged : findDD (x ++ pid ++ y) = none :=
            findDD_append_none (x ++ pid) y hfxp hfy (Or.inl hlastxp)
          have hmerged_ok : okSegs ((x ++ pid ++ y) :: ys) = true := by
            cases ys with
            | nil => simpa [okSegs] using (noDDb_iff (x ++ pid ++ y)).mpr hfmerged
            | cons z zs =>
              obtain ⟨⟨hndd_y, hlast_y⟩, hok_zs⟩ :
                  (noDDb y = true ∧ lastNotDollar y = true) ∧ okSegs (z :: zs) = true := by
                simpa [okSegs, Bool.and_eq_true] using hok_tail
              have hlast_m : lastNotDollar (x ++ pid ++ y) = true := by
                cases y with
                | nil => simpa using hlastxp
                | cons d ds =>
                  exact lastNotDollar_append (x ++ pid) (d :: ds) (by simp) hlast_y
              rw [show okSegs ((x ++ pid ++ y) :: z :: zs) =
                  (noDDb (x ++ pid ++ y) && lastNotDollar (x ++ pid ++ y) && okSegs (z :: zs))
                  from rfl]
              rw [(noDDb_iff (x ++ pid ++ y)).mpr hfmerged, hlast_m, hok_zs]
              rfl
          have hlen2 : ((x ++ pid ++ y) :: ys).length = n := by
            simp only [List.length_cons] at hlen ⊢
            omega
          have hfuel2 : ((x ++ pid ++ y) :: ys).length ≤ f + 1 := by
            simp only [List.length_cons] at hfuel ⊢
            omega
          have hb1 : (joinSep dd ((x ++ pid ++ y) :: ys)).length ≤ MAX_COMMAND_LENGTH - 1 := by
            rw [← hmid_eq]; exact hmid_len
          have hb2 : (joinSep pid ((x ++ pid ++ y) :: ys)).length ≤ MAX_COMMAND_LENGTH - 1 := by
            rw [joinSep_merge pid pid x y ys, ← joinSep_cons_cons pid x y ys]
            exact h2
          have hih := ih ((x ++ pid ++ y) :: ys) f hlen2 hfuel2 hmerged_ok hb1 hb2
          calc expandLoop pid (f + 1) (joinSep dd (x :: y :: ys))
              = expandLoop pid f
                  (List.take (MAX_COMMAND_LENGTH - 1) (x ++ pid ++ joinSep dd (y :: ys))) := by
                simp [expandLoop, hfind]
            _ = expandLoop pid f (joinSep dd ((x ++ pid ++ y) :: ys)) := by
                rw [htake, hmid_eq]
            _ = joinSep pid ((x ++ pid ++ y) :: ys) := hih
            _ = joinSep pid (x :: y :: ys) := by
                rw [joinSep_merge pid pid x y ys, ← joinSep_cons_cons pid x y ys]

/-- C7: for a line presented as its greedy left-to-right decomposition at
the two-character token — segments free of the token, none but the last
ending in a dollar — whose original and fully expanded forms both fit the
fixed snprintf bound MAX_COMMAND_LENGTH - 1, expand_pid replaces exactly
the k separators by the decimal digit string of the pid at their original
positions and leaves every other character unchanged. -/
theorem c7_expand_pid_correct (pid : List Char) (segs : List (List Char))
    (hne : pid ≠ []) (hdig : ∀ c ∈ pid, c.isDigit = true)
    (hok : okSegs segs = true)
    (h1 : (joinSep dd segs).length ≤ MAX_COMMAND_LENGTH - 1)
    (h2 : (joinSep pid segs).length ≤ MAX_COMMAND_LENGTH - 1) :
    expand_pid pid (joinSep dd segs) = joinSep pid segs := by
  have hnd : ∀ c ∈ pid, ¬ c = '$' := by
    intro c hc hcontra
    have hd := hdig c hc
    rw [hcontra] at hd
    exact absurd hd (by decide)
  rw [expand_pid]
  exact expandLoop_joinSep pid hne hnd segs.length segs ((joinSep dd segs).length + 1) rfl
    (by have := segsLen_le_joinSep segs; omega) hok h1 h2

/-- C7 witness: `echo $$` with pid 42 expands to `echo 42`. -/
theorem c7_witness :
    (['4', '2'] : List Char) ≠ [] ∧
    okSegs [['e', 'c', 'h', 'o', ' '], []] = true ∧
    expand_pid ['4', '2'] (joinSep dd [['e', 'c', 'h', 'o', ' '], []]) =
      joinSep ['4', '2'] [['e', 'c', 'h', 'o', ' '], []] :=
  ⟨by decide, by decide,
    c7_expand_pid_correct ['4', '2'] [['e', 'c', 'h', 'o', ' '], []]
      (by decide) (by decide) (by decide) (by decide) (by decide)⟩

end Smallsh
